import Mathlib

/-!
Verification of the `coveo::lazy` lazy-sorted associative container engine
(`lib/coveo/lazy/detail/lazy_sorted_container.h`).

The engine stores elements in a flat backing sequence `elements_` together
with a `sorted_` flag, and defers sorting until an order-dependent operation
runs.  We embed the container state as a list of elements plus the flag, and
each public operation as a function on that state, parametrised by

* `key : V → K`, the key projection `value_to_key` (identity for sets,
  `Prod.fst` for maps), with `K` linearly ordered (`key_compare` is the
  natural `<`, and the key-equality predicate is the induced equality,
  matching the library defaults `std::less` / `equal_to_using_less_if_needed`);
* `Multi : Bool`, whether the container accepts duplicate keys
  (multiset/multimap vs set/map).

`std::stable_sort` (multi resort) is modelled by `List.insertionSort` over the
pulled-back order `val_le key`: a stable sort's output is uniquely determined,
so any stable sorting algorithm is an exact model.  `std::sort` (non-multi
resort) promises only some sorted permutation; it is modelled by the same
sorting function, and the non-multi theorems below rely only on the output
being a sorted permutation of the input.
-/

namespace CoveoLazy

/-- State of a `lazy_sorted_container`: the backing sequence `elements_`
(`container_impl`, by default an `std::vector`, embedded as a `List`) and the
`sorted_` flag. -/
structure lazy_sorted_container (V : Type) where
  elements_ : List V
  sorted_ : Bool
deriving DecidableEq, Repr

variable {K V T : Type}

/-- The order on stored values induced by `key_compare` through `value_to_key`:
`¬ vcmp_ b a`, i.e. `key a ≤ key b`.  This is the ordering the resort
establishes. -/
def val_le [LinearOrder K] (key : V → K) (a b : V) : Prop := key a ≤ key b

instance [LinearOrder K] (key : V → K) : DecidableRel (val_le key) :=
  fun a b => inferInstanceAs (Decidable (key a ≤ key b))

/-- `std::unique`'s scan, with the value-equality predicate `veq_`
(key equality through the projection): `prev` is the last element kept;
elements whose key equals `prev`'s are dropped, and each kept element becomes
the new comparison point. -/
def unique_from [LinearOrder K] (key : V → K) : V → List V → List V
  | _, [] => []
  | prev, v :: vs =>
    if key prev = key v then unique_from key prev vs else v :: unique_from key v vs

/-- `std::unique(begin, end, veq_)`: removes all but the first element of
every run of consecutive key-equal elements. -/
def unique_adjacent [LinearOrder K] (key : V → K) : List V → List V
  | [] => []
  | v :: vs => v :: unique_from key v vs

/-- `sort_lazy_container_elements<Multi>`: multi containers use
`std::stable_sort(elements_, vcmp_)`; non-multi containers use
`std::sort(elements_, vcmp_)` followed by erasing the tail left by
`std::unique(elements_, veq_)`. -/
def sort_lazy_container_elements [LinearOrder K] (key : V → K) (Multi : Bool)
    (l : List V) : List V :=
  if Multi then List.insertionSort (val_le key) l
  else unique_adjacent key (List.insertionSort (val_le key) l)

/-- `lazy_sorted_container::sort_if_needed` / `internal_sort`: if `sorted_` is
false, sort the elements and set the flag. -/
def sort_if_needed [LinearOrder K] (key : V → K) (Multi : Bool)
    (c : lazy_sorted_container V) : lazy_sorted_container V :=
  if c.sorted_ then c else ⟨sort_lazy_container_elements key Multi c.elements_, true⟩

/-- `elements_.push_back(value)`: append at the back, flag untouched. -/
def push_back (v : V) (c : lazy_sorted_container V) : lazy_sorted_container V :=
  ⟨c.elements_ ++ [v], c.sorted_⟩

/-- `updated_lazy_container_sorted_flag_after_insert<Multi>`: the new value of
`sorted_` after an append onto a sorted container with more than one element,
computed from the second-to-last (`stl`) and last (`back`) elements.
Multi: `!vcmp_(back, stl)`; non-multi: `vcmp_(stl, back)`. -/
def updated_lazy_container_sorted_flag_after_insert [LinearOrder K] (key : V → K)
    (Multi : Bool) (stl back : V) : Bool :=
  if Multi then !decide (key back < key stl) else decide (key stl < key back)

/-- `lazy_sorted_container::update_sorted_after_push_back`: when the container
has more than one element after the push, recompute `sorted_` from the last
two elements (`crbegin()` and `crbegin() + 1`). -/
def update_sorted_after_push_back [LinearOrder K] (key : V → K) (Multi : Bool)
    (c : lazy_sorted_container V) : lazy_sorted_container V :=
  if 1 < c.elements_.length then
    match c.elements_.dropLast.getLast?, c.elements_.getLast? with
    | some stl, some back =>
      ⟨c.elements_, updated_lazy_container_sorted_flag_after_insert key Multi stl back⟩
    | _, _ => c
  else c

/-- `lazy_sorted_container::insert(value)` (and the move overload): push the
value at the back; if the container was sorted, update the flag. -/
def insert_value [LinearOrder K] (key : V → K) (Multi : Bool) (v : V)
    (c : lazy_sorted_container V) : lazy_sorted_container V :=
  if c.sorted_ then update_sorted_after_push_back key Multi (push_back v c)
  else push_back v c

/-- `lazy_sorted_container::emplace(args...)`: `emplace_back` the element
constructed from the arguments (here, the already-constructed element `v`),
then the same flag update as `insert`. -/
def emplace [LinearOrder K] (key : V → K) (Multi : Bool) (v : V)
    (c : lazy_sorted_container V) : lazy_sorted_container V :=
  if c.sorted_ then update_sorted_after_push_back key Multi (push_back v c)
  else push_back v c

/-- `lazy_sorted_container::insert(hint, value)`: the hint iterator (embedded
as a position) is discarded and the plain `insert(value)` is called. -/
def insert_hint [LinearOrder K] (key : V → K) (Multi : Bool) (_hint : Nat) (v : V)
    (c : lazy_sorted_container V) : lazy_sorted_container V :=
  insert_value key Multi v c

/-- `lazy_sorted_container::emplace_hint(hint, args...)`: the hint iterator is
discarded and `emplace(args...)` is called. -/
def emplace_hint [LinearOrder K] (key : V → K) (Multi : Bool) (_hint : Nat) (v : V)
    (c : lazy_sorted_container V) : lazy_sorted_container V :=
  emplace key Multi v c

/-- `lazy_sorted_container::insert(first, last)` and
`insert(initializer_list)`: append the whole range at the end, then
`sorted_ = elements_.size() <= 1`. -/
def insert_range (vs : List V) (c : lazy_sorted_container V) :
    lazy_sorted_container V :=
  ⟨c.elements_ ++ vs, decide ((c.elements_ ++ vs).length ≤ 1)⟩

/-- `sort_lazy_container_if_needed_and_not_multi<Multi>`: sorts only if the
container does not accept duplicates. -/
def sort_lazy_container_if_needed_and_not_multi [LinearOrder K] (key : V → K)
    (Multi : Bool) (c : lazy_sorted_container V) : lazy_sorted_container V :=
  if Multi then c else sort_if_needed key false c

/-- `lazy_sorted_container::size()`: sort first when duplicates are not
accepted, then return the backing sequence's size.  Returns the (possibly
resorted) state together with the count. -/
def size [LinearOrder K] (key : V → K) (Multi : Bool)
    (c : lazy_sorted_container V) : lazy_sorted_container V × Nat :=
  let c' := sort_lazy_container_if_needed_and_not_multi key Multi c
  (c', c'.elements_.length)

/-- `lazy_sorted_container::empty()`: `elements_.empty()`, no sorting and no
state change (the state is returned unchanged to make that explicit). -/
def empty (c : lazy_sorted_container V) : lazy_sorted_container V × Bool :=
  (c, c.elements_.isEmpty)

/-- Index returned by `std::lower_bound(elements_, k, vcmp_)` on the (sorted)
backing sequence: the first position whose element's key is not `< k`.
Modelled as the length of the longest prefix of key-`< k` elements, which is
what binary search returns on a sorted range. -/
def lower_bound_idx [LinearOrder K] (key : V → K) (k : K) (l : List V) : Nat :=
  (l.takeWhile fun v => decide (key v < k)).length

/-- Index returned by `std::upper_bound(elements_, k, vcmp_)` on the (sorted)
backing sequence: the first position whose element's key is `> k`. -/
def upper_bound_idx [LinearOrder K] (key : V → K) (k : K) (l : List V) : Nat :=
  (l.takeWhile fun v => !decide (k < key v)).length

/-- `lazy_sorted_container::equal_range(key)`: sorts if needed, then the pair
`(std::lower_bound, std::upper_bound)` as positions into the sorted state. -/
def equal_range [LinearOrder K] (key : V → K) (Multi : Bool) (k : K)
    (c : lazy_sorted_container V) : lazy_sorted_container V × Nat × Nat :=
  let c' := sort_if_needed key Multi c
  (c', lower_bound_idx key k c'.elements_, upper_bound_idx key k c'.elements_)

/-- `lazy_sorted_container::count(key)`: `std::distance` over `equal_range`. -/
def count [LinearOrder K] (key : V → K) (Multi : Bool) (k : K)
    (c : lazy_sorted_container V) : lazy_sorted_container V × Nat :=
  let r := equal_range key Multi k c
  (r.1, r.2.2 - r.2.1)

/-- `lazy_sorted_container::erase(first, last)`: erase the position range
`[i, j)` from the backing sequence; the `sorted_` flag is not touched. -/
def erase_range (i j : Nat) (c : lazy_sorted_container V) :
    lazy_sorted_container V :=
  ⟨c.elements_.take i ++ c.elements_.drop j, c.sorted_⟩

/-- `lazy_sorted_container::erase(key)`: `equal_range`, then erase that range
and return the distance between its two bounds. -/
def erase_key [LinearOrder K] (key : V → K) (Multi : Bool) (k : K)
    (c : lazy_sorted_container V) : lazy_sorted_container V × Nat :=
  let r := equal_range key Multi k c
  (erase_range r.2.1 r.2.2 r.1, r.2.2 - r.2.1)

/-- `lazy_sorted_container::find(key)`: sort if needed, `std::lower_bound`,
then the element there if it exists and its key is not `> k`
(`it != end && !vcmp_(key, *it)`); `none` models the `end()` iterator. -/
def find [LinearOrder K] (key : V → K) (Multi : Bool) (k : K)
    (c : lazy_sorted_container V) : lazy_sorted_container V × Option V :=
  let c' := sort_if_needed key Multi c
  (c',
    match c'.elements_[lower_bound_idx key k c'.elements_]? with
    | some v => if k < key v then none else some v
    | none => none)

/-- Iterating the container from `begin()` to `end()`: `begin()` sorts if
needed, then traversal yields the backing sequence in order. -/
def iteration [LinearOrder K] (key : V → K) (Multi : Bool)
    (c : lazy_sorted_container V) : lazy_sorted_container V × List V :=
  (sort_if_needed key Multi c, (sort_if_needed key Multi c).elements_)

/-- `lazy_sorted_container::clear()`: empty the backing sequence and set
`sorted_ = true`. -/
def clear (_c : lazy_sorted_container V) : lazy_sorted_container V :=
  ⟨[], true⟩

/-- `elements_.emplace(pos, args...)` on the backing sequence: insert an
element at position `i`. -/
def insert_at (i : Nat) (v : V) (l : List V) : List V :=
  l.take i ++ v :: l.drop i

/-- `lazy_sorted_container::at(key)` (non-multi maps only): sort if needed,
`std::lower_bound`; if the position is `end()` or its key is `> k`, throw
`coveo::lazy::out_of_range` (modelled by `none`), else return the mapped
value `it->second`. -/
def at_map [LinearOrder K] (k : K) (c : lazy_sorted_container (K × T)) :
    lazy_sorted_container (K × T) × Option T :=
  let c' := sort_if_needed (Prod.fst : K × T → K) false c
  (c',
    match c'.elements_[lower_bound_idx (Prod.fst : K × T → K) k c'.elements_]? with
    | some v => if k < v.1 then none else some v.2
    | none => none)

/-- `lazy_sorted_container::operator_brackets_impl(key)` (non-multi maps
only): sort if needed, `std::lower_bound`; if the key is absent, emplace a
pair of the key and a default-constructed mapped value at that position
(flag untouched), and return the mapped value at the position. -/
def operator_brackets_impl [LinearOrder K] [Inhabited T] (k : K)
    (c : lazy_sorted_container (K × T)) : lazy_sorted_container (K × T) × T :=
  let c' := sort_if_needed (Prod.fst : K × T → K) false c
  let i := lower_bound_idx (Prod.fst : K × T → K) k c'.elements_
  match c'.elements_[i]? with
  | some v =>
    if k < v.1 then (⟨insert_at i (k, default) c'.elements_, c'.sorted_⟩, default)
    else (c', v.2)
  | none => (⟨insert_at i (k, default) c'.elements_, c'.sorted_⟩, default)

/-- `lazy_sorted_container::try_emplace_impl(key, args...)` (non-multi only),
with the element to be constructed passed in as `v` (its key is `key v`):
sort if needed, `std::lower_bound` on `key v`; if absent, emplace `v` at that
position and report `true`, else leave the container unchanged and report
`false`.  The `true` branch is also the state effect of the insert branch of
`operator_brackets_impl` and `insert_or_assign_impl`. -/
def try_emplace_impl [LinearOrder K] (key : V → K) (v : V)
    (c : lazy_sorted_container V) : lazy_sorted_container V × Bool :=
  let c' := sort_if_needed key false c
  let i := lower_bound_idx key (key v) c'.elements_
  match c'.elements_[i]? with
  | some w =>
    if key v < key w then (⟨insert_at i v c'.elements_, c'.sorted_⟩, true)
    else (c', false)
  | none => (⟨insert_at i v c'.elements_, c'.sorted_⟩, true)

/-- Overwriting the element at position `i` in place.  This is the state
effect of assigning through `it->second` (map iterators expose a mutable
mapped value) and of the assign branch of `insert_or_assign_impl`; in all
those cases the stored key is unchanged, which callers of this definition
establish through a side condition. -/
def set_element (i : Nat) (v' : V) (c : lazy_sorted_container V) :
    lazy_sorted_container V :=
  ⟨c.elements_.set i v', c.sorted_⟩

/-- Containers reachable from the engine's public operations: default
construction, range/initializer-list construction (and assignment, which has
the same effect), single-element insert/emplace, bulk insert, any
order-dependent operation (all of which mutate state only through
`sort_if_needed`), erase by key, erase by iterator range (the range must be a
valid `[first, last)` range, hence `i ≤ j`), `clear`, the non-multi
insert-at-sorted-position operations (`operator[]`, `try_emplace`,
`insert_or_assign`), and in-place overwrites of an element's mapped value
(which keep the stored key). -/
inductive Reachable [LinearOrder K] (key : V → K) (Multi : Bool) :
    lazy_sorted_container V → Prop where
  | init : Reachable key Multi ⟨[], true⟩
  | of_range (l : List V) : Reachable key Multi ⟨l, decide (l.length ≤ 1)⟩
  | step_insert (v : V) (c : lazy_sorted_container V) :
      Reachable key Multi c → Reachable key Multi (insert_value key Multi v c)
  | step_insert_range (vs : List V) (c : lazy_sorted_container V) :
      Reachable key Multi c → Reachable key Multi (insert_range vs c)
  | step_sort (c : lazy_sorted_container V) :
      Reachable key Multi c → Reachable key Multi (sort_if_needed key Multi c)
  | step_erase_key (k : K) (c : lazy_sorted_container V) :
      Reachable key Multi c → Reachable key Multi (erase_key key Multi k c).1
  | step_erase_range (i j : Nat) (c : lazy_sorted_container V) :
      i ≤ j → Reachable key Multi c → Reachable key Multi (erase_range i j c)
  | step_clear (c : lazy_sorted_container V) :
      Reachable key Multi c → Reachable key Multi (clear c)
  | step_try_emplace (v : V) (c : lazy_sorted_container V) :
      Multi = false → Reachable key Multi c →
      Reachable key Multi (try_emplace_impl key v c).1
  | step_set_element (i : Nat) (v' : V) (c : lazy_sorted_container V) :
      (∀ w, c.elements_[i]? = some w → key v' = key w) →
      Reachable key Multi c → Reachable key Multi (set_element i v' c)

/-- The backing sequence's keys are in non-decreasing `key_less` order. -/
def keys_sorted [LinearOrder K] (key : V → K) (l : List V) : Prop :=
  (l.map key).Sorted (· ≤ ·)

/-- No two elements of the backing sequence have equal keys. -/
def keys_nodup (key : V → K) (l : List V) : Prop :=
  (l.map key).Nodup

/-! ### Basic lemmas about the embedded operations -/

/-- `sort_if_needed` always leaves the `sorted_` flag set. -/
theorem sort_if_needed_flag [LinearOrder K] (key : V → K) (Multi : Bool)
    (c : lazy_sorted_container V) : (sort_if_needed key Multi c).sorted_ = true := by
  unfold sort_if_needed
  split
  · assumption
  · rfl

/-- `sort_if_needed` is the identity on a container whose flag is set. -/
theorem sort_if_needed_of_sorted [LinearOrder K] (key : V → K) (Multi : Bool)
    (c : lazy_sorted_container V) (h : c.sorted_ = true) :
    sort_if_needed key Multi c = c := by
  unfold sort_if_needed
  simp [h]

/-- Closed form of a single-element insert: the value is appended at the back,
and the flag stays set exactly when the container was sorted and either was
empty or the comparison of the previous last element against the new one
succeeds. -/
theorem insert_value_eq [LinearOrder K] (key : V → K) (Multi : Bool) (v : V)
    (c : lazy_sorted_container V) :
    insert_value key Multi v c =
      ⟨c.elements_ ++ [v],
        c.sorted_ &&
          match c.elements_.getLast? with
          | none => true
          | some prev => updated_lazy_container_sorted_flag_after_insert key Multi prev v⟩ := by
  obtain ⟨l, s⟩ := c
  unfold insert_value update_sorted_after_push_back push_back
  cases s with
  | false => simp
  | true =>
    rcases l.eq_nil_or_concat with rfl | ⟨l', a, rfl⟩
    · simp
    · simp [List.dropLast_concat, List.getLast?_concat, Nat.lt_add_one_iff]

/-- `emplace` has exactly the state effect of a single-element insert. -/
theorem emplace_eq_insert_value [LinearOrder K] (key : V → K) (Multi : Bool) (v : V)
    (c : lazy_sorted_container V) :
    emplace key Multi v c = insert_value key Multi v c := rfl

/-! ### The sorting pass -/

/-- The sorting pass arranges the elements in non-decreasing key order. -/
theorem keys_sorted_insertionSort [LinearOrder K] (key : V → K) (l : List V) :
    keys_sorted key (List.insertionSort (val_le key) l) := by
  haveI : IsTotal V (val_le key) := ⟨fun a b => le_total (key a) (key b)⟩
  haveI : IsTrans V (val_le key) := ⟨fun _ _ _ hab hbc => le_trans hab hbc⟩
  have h := List.sorted_insertionSort (val_le key) l
  unfold keys_sorted
  rw [List.Sorted, List.pairwise_map]
  exact h

/-- The sorting pass permutes the elements. -/
theorem perm_sort [LinearOrder K] (key : V → K) (l : List V) :
    (List.insertionSort (val_le key) l).Perm l :=
  List.perm_insertionSort (val_le key) l

/-- Inserting an element whose key is `k` into a list leaves the sub-sequence
of key-`k` elements with the inserted element in front: all elements the
insertion point skips over have strictly smaller keys. -/
theorem filter_orderedInsert_key_eq [LinearOrder K] (key : V → K) (k : K) (x : V)
    (hx : key x = k) (l : List V) :
    (List.orderedInsert (val_le key) x l).filter (fun v => decide (key v = k)) =
      x :: l.filter (fun v => decide (key v = k)) := by
  induction l with
  | nil => simp [List.orderedInsert, hx]
  | cons b t ih =>
    rw [List.orderedInsert]
    by_cases h : val_le key x b
    · rw [if_pos h]
      simp [List.filter_cons, hx]
    · rw [if_neg h]
      have hb : key b < k := hx ▸ lt_of_not_le h
      have hbk : ¬ (key b = k) := ne_of_lt hb
      simp [List.filter_cons, hbk, ih]

/-- Inserting an element whose key is not `k` leaves the sub-sequence of
key-`k` elements unchanged. -/
theorem filter_orderedInsert_key_ne [LinearOrder K] (key : V → K) (k : K) (x : V)
    (hx : ¬ (key x = k)) (l : List V) :
    (List.orderedInsert (val_le key) x l).filter (fun v => decide (key v = k)) =
      l.filter (fun v => decide (key v = k)) := by
  induction l with
  | nil => simp [List.orderedInsert, hx]
  | cons b t ih =>
    rw [List.orderedInsert]
    by_cases h : val_le key x b
    · rw [if_pos h]
      simp [List.filter_cons, hx]
    · rw [if_neg h]
      simp [List.filter_cons, ih]

/-- Stability of the sorting pass: for every key `k`, the sub-sequence of
elements whose key is `k` is unchanged, i.e. key-equal elements keep their
original relative order. -/
theorem filter_insertionSort [LinearOrder K] (key : V → K) (k : K) (l : List V) :
    (List.insertionSort (val_le key) l).filter (fun v => decide (key v = k)) =
      l.filter (fun v => decide (key v = k)) := by
  induction l with
  | nil => rfl
  | cons a t ih =>
    show (List.orderedInsert (val_le key) a (List.insertionSort (val_le key) t)).filter _ = _
    by_cases ha : key a = k
    · rw [filter_orderedInsert_key_eq key k a ha, ih]
      simp [List.filter_cons, ha]
    · rw [filter_orderedInsert_key_ne key k a ha, ih]
      simp [List.filter_cons, ha]

/-! ### The deduplication pass (`std::unique`) -/

/-- The `std::unique` scan only drops elements. -/
theorem unique_from_sublist [LinearOrder K] (key : V → K) (prev : V) (l : List V) :
    List.Sublist (unique_from key prev l) l := by
  induction l generalizing prev with
  | nil => exact List.Sublist.refl _
  | cons v vs ih =>
    rw [unique_from]
    split
    · exact (ih prev).trans (List.sublist_cons_self v vs)
    · exact List.Sublist.cons₂ v (ih v)

/-- `std::unique` only drops elements. -/
theorem unique_adjacent_sublist [LinearOrder K] (key : V → K) (l : List V) :
    List.Sublist (unique_adjacent key l) l := by
  cases l with
  | nil => exact List.Sublist.refl _
  | cons v vs => exact List.Sublist.cons₂ v (unique_from_sublist key v vs)

/-- On a key-sorted input, the `std::unique` scan returns elements with
strictly increasing keys, all larger than the key of the last kept
element `prev`. -/
theorem unique_from_strict [LinearOrder K] (key : V → K) (prev : V) (l : List V)
    (h : keys_sorted key (prev :: l)) :
    ((prev :: unique_from key prev l).map key).Sorted (· < ·) := by
  induction l generalizing prev with
  | nil => simp [unique_from]
  | cons v vs ih =>
    have hle : ∀ b ∈ (v :: vs).map key, key prev ≤ b := (List.sorted_cons.mp h).1
    have hsvvs : ((v :: vs).map key).Sorted (· ≤ ·) := (List.sorted_cons.mp h).2
    rw [unique_from]
    split
    · rename_i heq
      apply ih prev
      refine List.sorted_cons.mpr ⟨?_, (List.sorted_cons.mp hsvvs).2⟩
      intro b hb
      exact hle b (List.mem_cons.mpr (Or.inr hb))
    · rename_i hne
      have hlt : key prev < key v :=
        lt_of_le_of_ne (hle (key v) (List.mem_cons.mpr (Or.inl rfl))) hne
      have ihv : ((v :: unique_from key v vs).map key).Sorted (· < ·) := ih v hsvvs
      refine List.sorted_cons.mpr ⟨?_, ihv⟩
      intro b hb
      rcases List.mem_cons.mp hb with rfl | hb'
      · exact hlt
      · exact lt_trans hlt ((List.sorted_cons.mp ihv).1 b hb')

/-- On a key-sorted input, `std::unique` leaves a key-sorted, key-duplicate
free sequence. -/
theorem unique_adjacent_sorted_nodup [LinearOrder K] (key : V → K) (l : List V)
    (h : keys_sorted key l) :
    keys_sorted key (unique_adjacent key l) ∧ keys_nodup key (unique_adjacent key l) := by
  cases l with
  | nil => constructor <;> simp [unique_adjacent, keys_sorted, keys_nodup]
  | cons v vs =>
    have hs := unique_from_strict key v vs h
    constructor
    · exact List.Pairwise.imp (fun hab => le_of_lt hab) hs
    · exact List.Pairwise.imp (fun hab => ne_of_lt hab) hs

/-- Every key present in the input to the `std::unique` scan is either the key
of the last kept element or still present in the output. -/
theorem mem_key_unique_from [LinearOrder K] (key : V → K) (prev : V) (l : List V)
    (x : K) (hx : x ∈ l.map key) :
    x = key prev ∨ x ∈ (unique_from key prev l).map key := by
  induction l generalizing prev with
  | nil => simp at hx
  | cons v vs ih =>
    rw [unique_from]
    rcases List.mem_cons.mp hx with rfl | hx'
    · split
      · rename_i heq
        exact Or.inl heq.symm
      · exact Or.inr (List.mem_cons.mpr (Or.inl rfl))
    · split
      · rename_i heq
        exact ih prev hx'
      · rcases ih v hx' with h | h
        · exact Or.inr (List.mem_cons.mpr (Or.inl h))
        · exact Or.inr (List.mem_cons.mpr (Or.inr h))

/-- Every key present before `std::unique` is present after it. -/
theorem mem_key_unique_adjacent [LinearOrder K] (key : V → K) (l : List V)
    (x : K) (hx : x ∈ l.map key) : x ∈ (unique_adjacent key l).map key := by
  cases l with
  | nil => simp at hx
  | cons v vs =>
    rcases List.mem_cons.mp hx with rfl | hx'
    · exact List.mem_cons.mpr (Or.inl rfl)
    · rcases mem_key_unique_from key v vs x hx' with h | h
      · exact List.mem_cons.mpr (Or.inl h)
      · exact List.mem_cons.mpr (Or.inr h)

/-- The non-multi resort (sort + unique) leaves exactly one element per
distinct key of the original sequence. -/
theorem length_sort_lazy_container_elements_nonmulti [LinearOrder K] (key : V → K)
    (l : List V) :
    (sort_lazy_container_elements key false l).length = ((l.map key).dedup).length := by
  have hs : keys_sorted key (List.insertionSort (val_le key) l) :=
    keys_sorted_insertionSort key l
  have hu := unique_adjacent_sorted_nodup key _ hs
  have hperm : ((List.insertionSort (val_le key) l).map key).Perm (l.map key) :=
    (perm_sort key l).map key
  have hset : ((unique_adjacent key (List.insertionSort (val_le key) l)).map key).toFinset
      = (l.map key).toFinset := by
    ext x
    simp only [List.mem_toFinset]
    constructor
    · intro hx
      refine hperm.mem_iff.mp ?_
      have hsub := (unique_adjacent_sublist key (List.insertionSort (val_le key) l)).map key
      exact hsub.mem hx
    · intro hx
      exact mem_key_unique_adjacent key _ x (hperm.mem_iff.mpr hx)
  have hcard : ((unique_adjacent key (List.insertionSort (val_le key) l)).map key).toFinset.card
      = ((l.map key).dedup).length := by
    rw [hset]
    rfl
  have hlen := List.toFinset_card_of_nodup hu.2
  unfold sort_lazy_container_elements
  simp only [if_neg (Bool.false_ne_true)]
  rw [← List.length_map _ key, ← hlen, hcard]

/-! ### `std::lower_bound` / `std::upper_bound` on a sorted sequence -/

/-- The first element of `dropWhile` does not satisfy the predicate. -/
theorem head?_dropWhile_not (p : V → Bool) (l : List V) :
    ∀ v, (l.dropWhile p).head? = some v → p v = false := by
  induction l with
  | nil => intro v h; simp [List.dropWhile] at h
  | cons a t ih =>
    intro v h
    rw [List.dropWhile_cons] at h
    split at h
    · exact ih v h
    · rename_i hp
      simp at h
      subst h
      exact Bool.eq_false_iff.mpr hp

/-- Taking as many elements as the longest satisfying prefix yields exactly
that prefix. -/
theorem take_length_takeWhile (p : V → Bool) (l : List V) :
    l.take (l.takeWhile p).length = l.takeWhile p := by
  induction l with
  | nil => rfl
  | cons a t ih =>
    rw [List.takeWhile_cons]
    split
    · simp [List.take_succ_cons, ih]
    · rfl

/-- Dropping as many elements as the longest satisfying prefix yields exactly
the `dropWhile` suffix. -/
theorem drop_length_takeWhile (p : V → Bool) (l : List V) :
    l.drop (l.takeWhile p).length = l.dropWhile p := by
  induction l with
  | nil => rfl
  | cons a t ih =>
    rw [List.takeWhile_cons, List.dropWhile_cons]
    split
    · simp [ih]
    · rfl

/-- A pointwise-stronger predicate has a shorter satisfying prefix. -/
theorem length_takeWhile_mono (p q : V → Bool) (l : List V)
    (h : ∀ v, p v = true → q v = true) :
    (l.takeWhile p).length ≤ (l.takeWhile q).length := by
  induction l with
  | nil => exact Nat.le_refl 0
  | cons a t ih =>
    rw [List.takeWhile_cons, List.takeWhile_cons]
    by_cases hp : p a = true
    · rw [if_pos hp, if_pos (h a hp)]
      exact Nat.succ_le_succ ih
    · rw [if_neg hp]
      exact Nat.zero_le _

/-- The satisfying prefix is never longer than the list. -/
theorem length_takeWhile_le_length (p : V → Bool) (l : List V) :
    (l.takeWhile p).length ≤ l.length := by
  induction l with
  | nil => exact Nat.le_refl 0
  | cons a t ih =>
    rw [List.takeWhile_cons]
    split
    · exact Nat.succ_le_succ ih
    · exact Nat.zero_le _

/-- The lower bound never exceeds the upper bound. -/
theorem lower_bound_le_upper_bound [LinearOrder K] (key : V → K) (k : K) (l : List V) :
    lower_bound_idx key k l ≤ upper_bound_idx key k l := by
  apply length_takeWhile_mono
  intro v hv
  have h1 : key v < k := of_decide_eq_true hv
  have h2 : ¬ (k < key v) := not_lt_of_gt h1
  simp [h2]

/-- The lower bound never exceeds the length of the sequence. -/
theorem lower_bound_le_length [LinearOrder K] (key : V → K) (k : K) (l : List V) :
    lower_bound_idx key k l ≤ l.length :=
  length_takeWhile_le_length _ l

/-- The upper bound never exceeds the length of the sequence. -/
theorem upper_bound_le_length [LinearOrder K] (key : V → K) (k : K) (l : List V) :
    upper_bound_idx key k l ≤ l.length :=
  length_takeWhile_le_length _ l

/-- The element at the lower-bound position is the first element of the
`dropWhile` suffix. -/
theorem getElem?_length_takeWhile (p : V → Bool) (l : List V) :
    l[(l.takeWhile p).length]? = (l.dropWhile p).head? := by
  induction l with
  | nil => rfl
  | cons a t ih =>
    rw [List.takeWhile_cons, List.dropWhile_cons]
    split
    · simpa using ih
    · simp

/-- Every element the lower bound skips over has key `< k`. -/
theorem mem_takeWhile_lower [LinearOrder K] (key : V → K) (k : K) (l : List V) :
    ∀ v ∈ l.takeWhile (fun v => decide (key v < k)), key v < k := by
  intro v hv
  have h := List.mem_takeWhile_imp (p := fun v => decide (key v < k)) (l := l) hv
  exact of_decide_eq_true h

/-- On a key-sorted sequence, every element from the upper bound onwards has
key `> k`. -/
theorem mem_dropWhile_upper [LinearOrder K] (key : V → K) (k : K) (l : List V)
    (h : keys_sorted key l) :
    ∀ v ∈ l.dropWhile (fun v => !decide (k < key v)), k < key v := by
  cases hdw : l.dropWhile (fun v => !decide (k < key v)) with
  | nil => simp
  | cons w t =>
    intro v hv
    have hw : k < key w := by
      have := head?_dropWhile_not (fun v => !decide (k < key v)) l w (by rw [hdw]; rfl)
      simpa using this
    have hsub : keys_sorted key (w :: t) :=
      h.sublist ((hdw ▸ List.dropWhile_sublist (l := l)
        (fun v => !decide (k < key v))).map key)
    rcases List.mem_cons.mp hv with rfl | hv'
    · exact hw
    · exact lt_of_lt_of_le hw
        ((List.sorted_cons.mp hsub).1 (key v) (List.mem_map_of_mem key hv'))

/-- If a key-`k` element exists in a key-sorted sequence, then the element at
the lower-bound position exists and its key is `k`. -/
theorem exists_at_lower_bound [LinearOrder K] (key : V → K) (k : K) (l : List V)
    (h : keys_sorted key l) (v : V) (hv : v ∈ l) (hkv : key v = k) :
    ∃ w, l[lower_bound_idx key k l]? = some w ∧ key w = k := by
  have hvd : v ∈ l.dropWhile (fun v => decide (key v < k)) := by
    rcases List.mem_append.mp
        ((List.takeWhile_append_dropWhile (fun v => decide (key v < k)) l) ▸ hv) with h1 | h2
    · exact absurd (mem_takeWhile_lower key k l v h1) (by rw [hkv]; exact lt_irrefl k)
    · exact h2
  cases hdw : l.dropWhile (fun v => decide (key v < k)) with
  | nil => rw [hdw] at hvd; simp at hvd
  | cons w t =>
    refine ⟨w, ?_, ?_⟩
    · show l[(l.takeWhile fun v => decide (key v < k)).length]? = some w
      rw [getElem?_length_takeWhile, hdw]
      rfl
    · have hwk : ¬ (key w < k) := by
        have := head?_dropWhile_not (fun v => decide (key v < k)) l w (by rw [hdw]; rfl)
        simpa using this
      have hsub : keys_sorted key (w :: t) :=
        h.sublist ((hdw ▸ List.dropWhile_sublist (l := l)
          (fun v => decide (key v < k))).map key)
      have hwle : key w ≤ key v := by
        rcases List.mem_cons.mp (hdw ▸ hvd) with rfl | hv'
        · exact le_refl _
        · exact (List.sorted_cons.mp hsub).1 (key v) (List.mem_map_of_mem key hv')
      exact le_antisymm (hkv ▸ hwle) (not_lt.mp hwk)

/-! ### The sorted-order invariant of reachable containers -/

/-- A sequence of at most one element is trivially key-sorted and
key-duplicate free. -/
theorem keys_short_inv [LinearOrder K] (key : V → K) (l : List V)
    (h : l.length ≤ 1) : keys_sorted key l ∧ keys_nodup key l := by
  rcases l with _ | ⟨a, _ | ⟨b, t⟩⟩
  · exact ⟨by simp [keys_sorted], by simp [keys_nodup]⟩
  · exact ⟨by simp [keys_sorted], by simp [keys_nodup]⟩
  · simp at h

/-- In a key-sorted sequence ending in `prev`, every key is at most
`key prev`. -/
theorem keys_le_getLast [LinearOrder K] (key : V → K) (l : List V) (prev : V)
    (h : keys_sorted key (l ++ [prev])) :
    ∀ x ∈ (l ++ [prev]).map key, x ≤ key prev := by
  intro x hx
  have h' : (l.map key ++ [key prev]).Pairwise (· ≤ ·) := by
    have h2 := h
    unfold keys_sorted at h2
    rwa [List.map_append, List.map_singleton] at h2
  rw [List.map_append] at hx
  rcases List.mem_append.mp hx with h1 | h2
  · exact (List.pairwise_append.mp h').2.2 x h1 (key prev) (by simp)
  · simp at h2
    exact h2.le

/-- Erasing a valid iterator range `[i, j)` leaves a sublist. -/
theorem take_append_drop_sublist (i j : Nat) (l : List V) (hij : i ≤ j) :
    List.Sublist (l.take i ++ l.drop j) l := by
  have h1 : List.Sublist (l.drop j) (l.drop i) := by
    have : (l.drop i).drop (j - i) = l.drop j := by
      rw [List.drop_drop, Nat.add_sub_of_le hij]
    rw [← this]
    exact List.drop_sublist _ _
  have h2 := h1.append_left (l.take i)
  rw [List.take_append_drop] at h2
  exact h2

/-- `sort_if_needed` establishes the full ordering invariant, provided the
invariant held whenever the flag claimed sortedness. -/
theorem sort_if_needed_invariant [LinearOrder K] (key : V → K) (Multi : Bool)
    (c : lazy_sorted_container V)
    (ih : c.sorted_ = true →
      keys_sorted key c.elements_ ∧ (Multi = false → keys_nodup key c.elements_)) :
    keys_sorted key (sort_if_needed key Multi c).elements_ ∧
      (Multi = false → keys_nodup key (sort_if_needed key Multi c).elements_) := by
  by_cases hcs : c.sorted_ = true
  · rw [sort_if_needed_of_sorted key Multi c hcs]
    exact ih hcs
  · have hcs' : c.sorted_ = false := eq_false_of_ne_true hcs
    unfold sort_if_needed
    rw [hcs']
    simp only [Bool.false_eq_true, if_false]
    unfold sort_lazy_container_elements
    cases Multi with
    | true =>
      simp only [if_true]
      exact ⟨keys_sorted_insertionSort key c.elements_, fun h => nomatch h⟩
    | false =>
      simp only [Bool.false_eq_true, if_false]
      have h := unique_adjacent_sorted_nodup key _ (keys_sorted_insertionSort key c.elements_)
      exact ⟨h.1, fun _ => h.2⟩

/-- Inserting `v` at its lower-bound position in a key-sorted, key-duplicate
free sequence that does not already contain `v`'s key preserves both
properties. -/
theorem insert_at_lower_bound_inv [LinearOrder K] (key : V → K) (v : V) (l : List V)
    (hs : keys_sorted key l) (hn : keys_nodup key l)
    (habs : ∀ w, l[lower_bound_idx key (key v) l]? = some w → key v < key w) :
    keys_sorted key (insert_at (lower_bound_idx key (key v) l) v l) ∧
      keys_nodup key (insert_at (lower_bound_idx key (key v) l) v l) := by
  have htake : l.take (lower_bound_idx key (key v) l)
      = l.takeWhile (fun w => decide (key w < key v)) :=
    take_length_takeWhile _ l
  have hdrop : l.drop (lower_bound_idx key (key v) l)
      = l.dropWhile (fun w => decide (key w < key v)) :=
    drop_length_takeWhile _ l
  have hlo : ∀ x ∈ l.take (lower_bound_idx key (key v) l), key x < key v := by
    rw [htake]
    exact mem_takeWhile_lower key (key v) l
  have hhi : ∀ x ∈ l.drop (lower_bound_idx key (key v) l), key v < key x := by
    rw [hdrop]
    cases hdw : l.dropWhile (fun w => decide (key w < key v)) with
    | nil => simp
    | cons w t =>
      intro x hx
      have hw : key v < key w := by
        apply habs
        show l[(l.takeWhile fun w => decide (key w < key v)).length]? = some w
        rw [getElem?_length_takeWhile, hdw]
        rfl
      have hsub : keys_sorted key (w :: t) :=
        hs.sublist ((hdw ▸ List.dropWhile_sublist (l := l)
          (fun w => decide (key w < key v))).map key)
      rcases List.mem_cons.mp hx with rfl | hx'
      · exact hw
      · exact lt_of_lt_of_le hw
          ((List.sorted_cons.mp hsub).1 (key x) (List.mem_map_of_mem key hx'))
  have hstake : keys_sorted key (l.take (lower_bound_idx key (key v) l)) :=
    hs.sublist ((List.take_sublist _ l).map key)
  have hsdrop : keys_sorted key (l.drop (lower_bound_idx key (key v) l)) :=
    hs.sublist ((List.drop_sublist _ l).map key)
  have hntake : keys_nodup key (l.take (lower_bound_idx key (key v) l)) :=
    hn.sublist ((List.take_sublist _ l).map key)
  have hndrop : keys_nodup key (l.drop (lower_bound_idx key (key v) l)) :=
    hn.sublist ((List.drop_sublist _ l).map key)
  constructor
  · show ((l.take _ ++ v :: l.drop _).map key).Pairwise (· ≤ ·)
    rw [List.map_append]
    refine List.pairwise_append.mpr ⟨hstake, ?_, ?_⟩
    · rw [List.map_cons]
      refine List.sorted_cons.mpr ⟨?_, hsdrop⟩
      intro b hb
      obtain ⟨x, hx, rfl⟩ := List.mem_map.mp hb
      exact (hhi x hx).le
    · intro a ha b hb
      obtain ⟨x, hx, rfl⟩ := List.mem_map.mp ha
      rw [List.map_cons] at hb
      rcases List.mem_cons.mp hb with rfl | hb'
      · exact (hlo x hx).le
      · obtain ⟨y, hy, rfl⟩ := List.mem_map.mp hb'
        exact le_of_lt (lt_trans (hlo x hx) (hhi y hy))
  · show ((l.take _ ++ v :: l.drop _).map key).Pairwise (· ≠ ·)
    rw [List.map_append]
    refine List.pairwise_append.mpr ⟨hntake, ?_, ?_⟩
    · rw [List.map_cons]
      refine List.Pairwise.cons ?_ hndrop
      intro b hb
      obtain ⟨x, hx, rfl⟩ := List.mem_map.mp hb
      exact (hhi x hx).ne
    · intro a ha b hb
      obtain ⟨x, hx, rfl⟩ := List.mem_map.mp ha
      rw [List.map_cons] at hb
      rcases List.mem_cons.mp hb with rfl | hb'
      · exact (hlo x hx).ne
      · obtain ⟨y, hy, rfl⟩ := List.mem_map.mp hb'
        exact (lt_trans (hlo x hx) (hhi y hy)).ne

/-- Overwriting position `i` with an element of the same key leaves the key
sequence unchanged. -/
theorem map_key_set (key : V → K) (l : List V) (i : Nat) (v' : V)
    (hk : ∀ w, l[i]? = some w → key v' = key w) :
    (l.set i v').map key = l.map key := by
  induction l generalizing i with
  | nil => rfl
  | cons a t ih =>
    cases i with
    | zero =>
      have : key v' = key a := hk a (by simp)
      simp [List.set_cons_zero, this]
    | succ n =>
      rw [List.set_cons_succ]
      simp only [List.map_cons]
      rw [ih n (fun w hw => hk w (by simpa using hw))]

/-- Main invariant: for every reachable container whose `sorted_` flag is
set, the backing sequence is in non-decreasing key order, and for non-multi
containers no two elements have equal keys. -/
theorem reachable_invariant [LinearOrder K] (key : V → K) (Multi : Bool)
    (c : lazy_sorted_container V) (h : Reachable key Multi c) :
    c.sorted_ = true →
      keys_sorted key c.elements_ ∧ (Multi = false → keys_nodup key c.elements_) := by
  induction h with
  | init =>
    intro _
    exact ⟨by simp [keys_sorted], fun _ => by simp [keys_nodup]⟩
  | of_range l =>
    intro hs
    have hl : l.length ≤ 1 := of_decide_eq_true hs
    have h := keys_short_inv key l hl
    exact ⟨h.1, fun _ => h.2⟩
  | step_insert v c _ ih =>
    rw [insert_value_eq]
    intro hs
    simp only at hs
    have hcs : c.sorted_ = true := (Bool.and_eq_true _ _).mp hs |>.1
    have hflag := (Bool.and_eq_true _ _).mp hs |>.2
    obtain ⟨hsrt, hnd⟩ := ih hcs
    show keys_sorted key (c.elements_ ++ [v]) ∧
      (Multi = false → keys_nodup key (c.elements_ ++ [v]))
    cases hgl : c.elements_.getLast? with
    | none =>
      have hnil : c.elements_ = [] := List.getLast?_eq_none_iff.mp hgl
      rw [hnil]
      have h := keys_short_inv key [v] (by simp)
      exact ⟨h.1, fun _ => h.2⟩
    | some prev =>
      rw [hgl] at hflag
      obtain ⟨l', heq⟩ := List.getLast?_eq_some_iff.mp hgl
      rw [heq] at hsrt hnd ⊢
      unfold updated_lazy_container_sorted_flag_after_insert at hflag
      have hmax := keys_le_getLast key l' prev hsrt
      cases Multi with
      | true =>
        have hle : key prev ≤ key v := by
          have hnlt : ¬ (key v < key prev) := by simpa using hflag
          exact not_lt.mp hnlt
        refine ⟨?_, fun h => nomatch h⟩
        show (((l' ++ [prev]) ++ [v]).map key).Pairwise (· ≤ ·)
        rw [List.map_append, List.map_singleton]
        refine List.pairwise_append.mpr ⟨hsrt, List.pairwise_singleton _ _, ?_⟩
        intro a ha b hb
        rw [List.mem_singleton] at hb
        subst hb
        exact le_trans (hmax a ha) hle
      | false =>
        have hlt : key prev < key v := by
          have hflag' : decide (key prev < key v) = true := by simpa using hflag
          exact of_decide_eq_true hflag'

        have hnd' := hnd rfl
        constructor
        · show (((l' ++ [prev]) ++ [v]).map key).Pairwise (· ≤ ·)
          rw [List.map_append, List.map_singleton]
          refine List.pairwise_append.mpr ⟨hsrt, List.pairwise_singleton _ _, ?_⟩
          intro a ha b hb
          rw [List.mem_singleton] at hb
          subst hb
          exact le_trans (hmax a ha) hlt.le
        · intro _
          show (((l' ++ [prev]) ++ [v]).map key).Pairwise (· ≠ ·)
          rw [List.map_append, List.map_singleton]
          refine List.pairwise_append.mpr ⟨hnd', List.pairwise_singleton _ _, ?_⟩
          intro a ha b hb
          rw [List.mem_singleton] at hb
          subst hb
          exact ne_of_lt (lt_of_le_of_lt (hmax a ha) hlt)
  | step_insert_range vs c _ _ =>
    intro hs
    have hl : (c.elements_ ++ vs).length ≤ 1 := of_decide_eq_true hs
    have h := keys_short_inv key (c.elements_ ++ vs) hl
    exact ⟨h.1, fun _ => h.2⟩
  | step_sort c _ ih =>
    intro _
    exact sort_if_needed_invariant key Multi c ih
  | step_erase_key k c _ ih =>
    intro _
    have hinv := sort_if_needed_invariant key Multi c ih
    have hsub : List.Sublist
        ((sort_if_needed key Multi c).elements_.take
            (lower_bound_idx key k (sort_if_needed key Multi c).elements_) ++
          (sort_if_needed key Multi c).elements_.drop
            (upper_bound_idx key k (sort_if_needed key Multi c).elements_))
        (sort_if_needed key Multi c).elements_ :=
      take_append_drop_sublist _ _ _ (lower_bound_le_upper_bound key k _)
    exact ⟨hinv.1.sublist (hsub.map key),
      fun hm => ((hinv.2 hm).sublist (hsub.map key))⟩
  | step_erase_range i j c hij _ ih =>
    intro hs
    obtain ⟨hsrt, hnd⟩ := ih hs
    have hsub := take_append_drop_sublist i j c.elements_ hij
    exact ⟨hsrt.sublist (hsub.map key), fun hm => (hnd hm).sublist (hsub.map key)⟩
  | step_clear c _ _ =>
    intro _
    constructor
    · show (([] : List V).map key).Sorted (· ≤ ·)
      simp
    · intro _
      show (([] : List V).map key).Nodup
      simp
  | step_try_emplace v c hm _ ih =>
    subst hm
    intro _
    have hinv := sort_if_needed_invariant key false c ih
    have hnd := hinv.2 rfl
    unfold try_emplace_impl
    cases hge : (sort_if_needed key false c).elements_[lower_bound_idx key (key v)
        (sort_if_needed key false c).elements_]? with
    | none =>
      simp only [hge]
      have h := insert_at_lower_bound_inv key v _ hinv.1 hnd
        (fun w hw => by rw [hge] at hw; exact nomatch hw)
      exact ⟨h.1, fun _ => h.2⟩
    | some w =>
      simp only [hge]
      by_cases hlt : key v < key w
      · rw [if_pos hlt]
        have h := insert_at_lower_bound_inv key v _ hinv.1 hnd
          (fun w' hw' => by rw [hge] at hw'; injection hw' with hw''; rw [← hw'']; exact hlt)
        exact ⟨h.1, fun _ => h.2⟩
      · rw [if_neg hlt]
        exact ⟨hinv.1, fun _ => hnd⟩
  | step_set_element i v' c hk _ ih =>
    intro hs
    obtain ⟨hsrt, hnd⟩ := ih hs
    have hmap := map_key_set key c.elements_ i v' hk
    constructor
    · show ((c.elements_.set i v').map key).Pairwise (· ≤ ·)
      rw [hmap]
      exact hsrt
    · intro hm
      show ((c.elements_.set i v').map key).Pairwise (· ≠ ·)
      rw [hmap]
      exact hnd hm

/-! ### Further helpers for the claim theorems -/

/-- Indexing an append at the length of the first part reads the head of the
second part. -/
theorem getElem?_append_length (A B : List V) : (A ++ B)[A.length]? = B.head? := by
  rw [List.getElem?_append_right (Nat.le_refl _)]
  rw [Nat.sub_self]
  cases B <;> simp

/-- `takeWhile` walks through a first part that satisfies the predicate
everywhere. -/
theorem takeWhile_append_of_all (p : V → Bool) (A B : List V)
    (hA : ∀ a ∈ A, p a = true) :
    (A ++ B).takeWhile p = A ++ B.takeWhile p := by
  induction A with
  | nil => rfl
  | cons a t ih =>
    rw [List.cons_append, List.takeWhile_cons, if_pos (hA a (List.mem_cons_self a t))]
    rw [ih fun x hx => hA x (List.mem_cons_of_mem a hx)]
    rfl

/-- `std::unique` returns an empty sequence only on an empty input. -/
theorem unique_adjacent_eq_nil_iff [LinearOrder K] (key : V → K) (l : List V) :
    unique_adjacent key l = [] ↔ l = [] := by
  cases l with
  | nil => simp [unique_adjacent]
  | cons v vs => simp [unique_adjacent]

/-- Inserting at a position inside the sequence grows it by one. -/
theorem length_insert_at (i : Nat) (v : V) (l : List V) (h : i ≤ l.length) :
    (insert_at i v l).length = l.length + 1 := by
  unfold insert_at
  rw [List.length_append, List.length_cons, List.length_take, List.length_drop]
  omega

/-! ### Claim theorems -/

/-- C1: for every container (set, multiset, map, multimap) built through any
sequence of the engine's public operations, whenever `sorted()` returns true
the backing sequence is in non-decreasing key order under `key_less`, and for
non-multi variants additionally no two stored elements have keys equal under
`key_equal`. -/
theorem c1_sorted_invariant [LinearOrder K] (key : V → K) (Multi : Bool)
    (c : lazy_sorted_container V) (h : Reachable key Multi c) (hs : c.sorted_ = true) :
    keys_sorted key c.elements_ ∧ (Multi = false → keys_nodup key c.elements_) :=
  reachable_invariant key Multi c h hs

/-- Witness for C1: a concrete reachable container (bulk-constructed from
`[3, 1, 2]`, hence dirty, then resorted by `sort_if_needed`) whose flag is
set, so the invariant theorem applies to it. -/
theorem c1_witness :
    (sort_if_needed (fun n : Nat => n) false
        ⟨[3, 1, 2], decide (([3, 1, 2] : List Nat).length ≤ 1)⟩).sorted_ = true
    ∧ (keys_sorted (fun n : Nat => n)
        (sort_if_needed (fun n : Nat => n) false
          ⟨[3, 1, 2], decide (([3, 1, 2] : List Nat).length ≤ 1)⟩).elements_
      ∧ (false = false → keys_nodup (fun n : Nat => n)
          (sort_if_needed (fun n : Nat => n) false
            ⟨[3, 1, 2], decide (([3, 1, 2] : List Nat).length ≤ 1)⟩).elements_)) :=
  ⟨by decide,
    c1_sorted_invariant (fun n : Nat => n) false _
      (Reachable.step_sort _ (Reachable.of_range _)) (by decide)⟩

/-- C2 counterexample: the claim asserts that a Sorted container with 0 or 1
elements before a single-element insert stays Sorted.  On the one-element
sorted non-multi container `[5]`, inserting `3` makes the code recompute the
flag from the comparison of the previous last element `5` against `3`, which
fails, so the container becomes Dirty (correctly: `[5, 3]` is not sorted). -/
theorem c2_counterexample :
    (([5] : List Nat).length ≤ 1)
    ∧ (lazy_sorted_container.mk ([5] : List Nat) true).sorted_ = true
    ∧ (insert_value (fun n : Nat => n) false 3
        (lazy_sorted_container.mk ([5] : List Nat) true)).sorted_ = false := by
  decide

/-- C2 (amended): a single-element insert appends the value at the back; the
new flag is set iff the container was Sorted and either was empty, or the
previous last element compares against the new one: for non-multi variants
the previous last key must be strictly less than the new key, for multi
variants the new key must not be less than the previous last key.  (A Dirty
container stays Dirty; only a container with 0 elements before the append
stays Sorted unconditionally — with exactly one element the comparison rule
already applies.) -/
theorem c2_insert_flag [LinearOrder K] (key : V → K) (Multi : Bool) (v : V)
    (c : lazy_sorted_container V) :
    (insert_value key Multi v c).elements_ = c.elements_ ++ [v]
    ∧ ((insert_value key Multi v c).sorted_ = true ↔
        (c.sorted_ = true ∧
          (c.elements_ = [] ∨
            ∃ l' prev, c.elements_ = l' ++ [prev] ∧
              (Multi = true → ¬ (key v < key prev)) ∧
              (Multi = false → key prev < key v)))) := by
  rw [insert_value_eq]
  refine ⟨rfl, ?_⟩
  show (c.sorted_ && _) = true ↔ _
  rw [Bool.and_eq_true]
  cases hgl : c.elements_.getLast? with
  | none =>
    have hnil : c.elements_ = [] := List.getLast?_eq_none_iff.mp hgl
    simp [hnil]
  | some prev =>
    obtain ⟨l', heq⟩ := List.getLast?_eq_some_iff.mp hgl
    constructor
    · rintro ⟨hcs, hflag⟩
      refine ⟨hcs, Or.inr ⟨l', prev, heq, ?_, ?_⟩⟩
      · intro hm
        subst hm
        have : (!decide (key v < key prev)) = true := by
          simpa [updated_lazy_container_sorted_flag_after_insert] using hflag
        simpa using this
      · intro hm
        subst hm
        have : decide (key prev < key v) = true := by
          simpa [updated_lazy_container_sorted_flag_after_insert] using hflag
        exact of_decide_eq_true this
    · rintro ⟨hcs, hnil | ⟨l'', prev'', heq'', h1, h2⟩⟩
      · rw [hnil] at heq
        exact absurd heq (by simp)
      · have hsame : prev'' = prev := by
          have := congrArg List.getLast? heq''
          rw [hgl, List.getLast?_concat] at this
          exact (Option.some_inj.mp this).symm
        subst hsame
        refine ⟨hcs, ?_⟩
        unfold updated_lazy_container_sorted_flag_after_insert
        cases Multi with
        | true =>
          simp only [if_pos rfl]
          simpa using h1 rfl
        | false =>
          simp only [Bool.false_eq_true, if_false]
          exact decide_eq_true (h2 rfl)

/-- C3: after a multi-variant resort the elements are sorted by key and
elements with equivalent keys keep their original relative insertion order
(stability); concretely, inserting `(23,"Shuck")`, `(42,"Life")`,
`(23,"Hangar")` into an empty multimap and iterating yields
`[(23,"Shuck"), (23,"Hangar"), (42,"Life")]`. -/
theorem c3_multi_stability [LinearOrder K] (key : V → K) (l : List V) :
    keys_sorted key (sort_lazy_container_elements key true l)
    ∧ (∀ k : K,
        (sort_lazy_container_elements key true l).filter (fun v => decide (key v = k))
          = l.filter (fun v => decide (key v = k)))
    ∧ (iteration (Prod.fst : Nat × String → Nat) true
          (insert_value Prod.fst true (23, "Hangar")
            (insert_value Prod.fst true (42, "Life")
              (insert_value Prod.fst true (23, "Shuck") ⟨[], true⟩)))).2
        = [(23, "Shuck"), (23, "Hangar"), (42, "Life")] := by
  refine ⟨?_, ?_, ?_⟩
  · show keys_sorted key (List.insertionSort (val_le key) l)
    exact keys_sorted_insertionSort key l
  · intro k
    show (List.insertionSort (val_le key) l).filter _ = _
    exact filter_insertionSort key k l
  · decide

/-- C5: a bulk insert (range or initializer list) appends the range at the
end of the backing sequence, and the flag afterwards is set iff the total
size is at most 1 — in particular any bulk insert into a Sorted container of
two or more elements leaves it Dirty. -/
theorem c5_bulk_insert (vs : List V) (c : lazy_sorted_container V) :
    (insert_range vs c).elements_ = c.elements_ ++ vs
    ∧ ((insert_range vs c).sorted_ = true ↔ c.elements_.length + vs.length ≤ 1) := by
  refine ⟨rfl, ?_⟩
  show decide ((c.elements_ ++ vs).length ≤ 1) = true ↔ _
  rw [List.length_append]
  exact decide_eq_true_iff

/-- C10: the hinted insert produces exactly the same container state as the
plain insert, and `emplace_hint` the same state as `emplace`: the hint is
discarded and has no observable effect. -/
theorem c10_hint_discarded [LinearOrder K] (key : V → K) (Multi : Bool) (hint : Nat)
    (v : V) (c : lazy_sorted_container V) :
    insert_hint key Multi hint v c = insert_value key Multi v c
    ∧ emplace_hint key Multi hint v c = emplace key Multi v c :=
  ⟨rfl, rfl⟩

/-- C9: `empty()` never sorts and never changes state, and its result is
nonetheless accurate even for a Dirty non-multi container: it is true iff the
backing sequence is empty, which is also exactly when `size()` after a full
non-multi resort-and-deduplicate would be zero. -/
theorem c9_empty [LinearOrder K] (key : V → K) (c : lazy_sorted_container V) :
    (empty c).1 = c
    ∧ ((empty c).2 = true ↔ c.elements_ = [])
    ∧ ((empty c).2 = true ↔ (size key false c).2 = 0) := by
  refine ⟨rfl, List.isEmpty_iff, ?_⟩
  show c.elements_.isEmpty = true ↔ (sort_if_needed key false c).elements_.length = 0
  rw [List.isEmpty_iff, List.length_eq_zero]
  by_cases hs : c.sorted_ = true
  · rw [sort_if_needed_of_sorted key false c hs]
  · have hs' : c.sorted_ = false := eq_false_of_ne_true hs
    unfold sort_if_needed
    rw [hs']
    simp only [Bool.false_eq_true, if_false]
    show _ ↔ sort_lazy_container_elements key false c.elements_ = []
    unfold sort_lazy_container_elements
    simp only [Bool.false_eq_true, if_false]
    rw [unique_adjacent_eq_nil_iff]
    constructor
    · intro h
      rw [h]
      rfl
    · intro h
      have := (perm_sort key c.elements_).length_eq
      rw [h] at this
      exact List.length_eq_zero.mp this.symm

/-- `std::lower_bound`'s position splits the sequence as `take`/`takeWhile`. -/
theorem take_lower_bound [LinearOrder K] (key : V → K) (k : K) (l : List V) :
    l.take (lower_bound_idx key k l) = l.takeWhile (fun v => decide (key v < k)) :=
  take_length_takeWhile _ l

/-- `std::upper_bound`'s position splits the sequence as `drop`/`dropWhile`. -/
theorem drop_upper_bound [LinearOrder K] (key : V → K) (k : K) (l : List V) :
    l.drop (upper_bound_idx key k l) = l.dropWhile (fun v => !decide (k < key v)) :=
  drop_length_takeWhile _ l

/-- The element at the lower-bound position never has key `< k`. -/
theorem lower_bound_entry_not_lt [LinearOrder K] (key : V → K) (k : K) (l : List V)
    (w : V) (hw : l[lower_bound_idx key k l]? = some w) : ¬ (key w < k) := by
  rw [show lower_bound_idx key k l
        = (l.takeWhile fun v => decide (key v < k)).length from rfl,
    getElem?_length_takeWhile] at hw
  have h := head?_dropWhile_not (fun v => decide (key v < k)) l w hw
  simpa using h

/-- Whatever `find` returns is a stored element whose key is exactly the
searched key. -/
theorem find_some_mem_key [LinearOrder K] (key : V → K) (Multi : Bool) (k : K)
    (c : lazy_sorted_container V) (v : V) (h : (find key Multi k c).2 = some v) :
    v ∈ (sort_if_needed key Multi c).elements_ ∧ key v = k := by
  have h' : (match (sort_if_needed key Multi c).elements_[lower_bound_idx key k
        (sort_if_needed key Multi c).elements_]? with
      | some w => if k < key w then none else some w
      | none => (none : Option V)) = some v := h
  cases hge : (sort_if_needed key Multi c).elements_[lower_bound_idx key k
      (sort_if_needed key Multi c).elements_]? with
  | none => rw [hge] at h'; exact nomatch h'
  | some w =>
    rw [hge] at h'
    have h2 : (if k < key w then none else some w) = some v := h'
    by_cases hk : k < key w
    · rw [if_pos hk] at h2
      exact nomatch h2
    · rw [if_neg hk] at h2
      injection h2 with h3
      subst h3
      refine ⟨List.getElem?_mem hge, ?_⟩
      exact le_antisymm (not_lt.mp hk) (not_lt.mp (lower_bound_entry_not_lt key k _ w hge))

/-- C4: for a non-multi container, `size()` first resorts (sort plus removal
of key-equal adjacent duplicates) and the value returned equals the number of
distinct keys among the backing elements; for multi containers, `size()`
triggers no resort and returns the raw element count. -/
theorem c4_size [LinearOrder K] (key : V → K) (c : lazy_sorted_container V)
    (h : Reachable key false c) :
    (size key false c).1 = sort_if_needed key false c
    ∧ (size key false c).2 = ((c.elements_.map key).dedup).length
    ∧ (∀ cm : lazy_sorted_container V, size key true cm = (cm, cm.elements_.length)) := by
  refine ⟨rfl, ?_, fun cm => rfl⟩
  show (sort_if_needed key false c).elements_.length = _
  by_cases hs : c.sorted_ = true
  · rw [sort_if_needed_of_sorted key false c hs]
    have hnd := (reachable_invariant key false c h hs).2 rfl
    rw [List.dedup_eq_self.mpr hnd, List.length_map]
  · have hs' : c.sorted_ = false := eq_false_of_ne_true hs
    unfold sort_if_needed
    rw [hs']
    simp only [Bool.false_eq_true, if_false]
    exact length_sort_lazy_container_elements_nonmulti key c.elements_

/-- Witness for C4: the non-multi container bulk-constructed from `[3, 1, 3]`
(Dirty, with duplicate key 3) reports size 2, the number of distinct keys. -/
theorem c4_witness :
    (size (fun n : Nat => n) false
        ⟨[3, 1, 3], decide (([3, 1, 3] : List Nat).length ≤ 1)⟩).1
      = sort_if_needed (fun n : Nat => n) false
          ⟨[3, 1, 3], decide (([3, 1, 3] : List Nat).length ≤ 1)⟩
    ∧ (size (fun n : Nat => n) false
        ⟨[3, 1, 3], decide (([3, 1, 3] : List Nat).length ≤ 1)⟩).2
      = ((([3, 1, 3] : List Nat).map (fun n : Nat => n)).dedup).length
    ∧ (∀ cm : lazy_sorted_container Nat,
        size (fun n : Nat => n) true cm = (cm, cm.elements_.length)) :=
  c4_size (fun n : Nat => n) _ (Reachable.of_range _)

/-- C7: `erase(key)` returns exactly what `count(key)` would have returned
just before, and `find(key)` right after `erase(key)` returns the end
iterator. -/
theorem c7_erase_then_find [LinearOrder K] (key : V → K) (Multi : Bool) (k : K)
    (c : lazy_sorted_container V) (h : Reachable key Multi c) :
    (erase_key key Multi k c).2 = (count key Multi k c).2
    ∧ (find key Multi k (erase_key key Multi k c).1).2 = none := by
  refine ⟨rfl, ?_⟩
  have hsorted : keys_sorted key (sort_if_needed key Multi c).elements_ :=
    (sort_if_needed_invariant key Multi c (reachable_invariant key Multi c h)).1
  cases hf : (find key Multi k (erase_key key Multi k c).1).2 with
  | none => rfl
  | some v =>
    exfalso
    obtain ⟨hmem, hkey⟩ := find_some_mem_key key Multi k _ v hf
    have hflag : (erase_key key Multi k c).1.sorted_ = true := by
      show (sort_if_needed key Multi c).sorted_ = true
      exact sort_if_needed_flag key Multi c
    rw [sort_if_needed_of_sorted key Multi _ hflag] at hmem
    have hmem' : v ∈
        (sort_if_needed key Multi c).elements_.take
            (lower_bound_idx key k (sort_if_needed key Multi c).elements_) ++
          (sort_if_needed key Multi c).elements_.drop
            (upper_bound_idx key k (sort_if_needed key Multi c).elements_) := hmem
    rcases List.mem_append.mp hmem' with h1 | h2
    · rw [take_lower_bound] at h1
      exact absurd (mem_takeWhile_lower key k _ v h1) (by rw [hkey]; exact lt_irrefl k)
    · rw [drop_upper_bound] at h2
      exact absurd (mem_dropWhile_upper key k _ hsorted v h2) (by rw [hkey]; exact lt_irrefl k)

/-- The multimap of the C7 scenario: two elements with key 23 (inserted in
the order "Shuck", "Hangar") and one with key 42. -/
def c7_example_container : lazy_sorted_container (Nat × String) :=
  insert_value Prod.fst true (42, "Life")
    (insert_value Prod.fst true (23, "Hangar")
      (insert_value Prod.fst true (23, "Shuck") ⟨[], true⟩))

/-- Witness for C7: the multimap scenario with two elements of key 23 and one
of key 42; erasing key 23 removes a count of 2 and a subsequent find reports
not-found. -/
theorem c7_witness :
    (erase_key (Prod.fst : Nat × String → Nat) true 23 c7_example_container).2
      = (count (Prod.fst : Nat × String → Nat) true 23 c7_example_container).2
    ∧ (find (Prod.fst : Nat × String → Nat) true 23
        (erase_key (Prod.fst : Nat × String → Nat) true 23 c7_example_container).1).2
      = none
    ∧ (erase_key (Prod.fst : Nat × String → Nat) true 23 c7_example_container).2 = 2 := by
  have hr : Reachable (Prod.fst : Nat × String → Nat) true c7_example_container :=
    Reachable.step_insert _ _ (Reachable.step_insert _ _
      (Reachable.step_insert _ _ Reachable.init))
  exact ⟨(c7_erase_then_find (Prod.fst : Nat × String → Nat) true 23 _ hr).1,
    (c7_erase_then_find (Prod.fst : Nat × String → Nat) true 23 _ hr).2,
    by decide⟩

/-- C6: for a non-multi map, `at(k)` raises `coveo::lazy::out_of_range`
(modelled by `none`) iff, after resorting, no stored element's key is
equivalent to `k` under the `key_less`-induced equivalence; otherwise it
returns the mapped value of the element whose key is equivalent to `k`,
without modifying the set of elements (the state is exactly the resorted
state). -/
theorem c6_at_key_not_found [LinearOrder K] (k : K) (c : lazy_sorted_container (K × T))
    (h : Reachable (Prod.fst : K × T → K) false c) :
    (at_map k c).1 = sort_if_needed (Prod.fst : K × T → K) false c
    ∧ ((at_map k c).2 = none ↔
        ∀ v ∈ (sort_if_needed (Prod.fst : K × T → K) false c).elements_,
          ¬ (¬ (v.1 < k) ∧ ¬ (k < v.1)))
    ∧ (∀ v ∈ (sort_if_needed (Prod.fst : K × T → K) false c).elements_,
        v.1 = k → (at_map k c).2 = some v.2) := by
  have hinv := sort_if_needed_invariant (Prod.fst : K × T → K) false c
    (reachable_invariant (Prod.fst : K × T → K) false c h)
  have hs' := hinv.1
  have hnd' := hinv.2 rfl
  have hbody : (at_map k c).2 =
      (match (sort_if_needed (Prod.fst : K × T → K) false c).elements_[
          lower_bound_idx (Prod.fst : K × T → K) k
            (sort_if_needed (Prod.fst : K × T → K) false c).elements_]? with
        | some v => if k < v.1 then none else some v.2
        | none => none) := rfl
  refine ⟨rfl, ⟨?_, ?_⟩, ?_⟩
  · intro hnone v hv hcon
    have hvk : v.1 = k := le_antisymm (not_lt.mp hcon.2) (not_lt.mp hcon.1)
    obtain ⟨w, hw, hwk⟩ :=
      exists_at_lower_bound (Prod.fst : K × T → K) k _ hs' v hv hvk
    rw [hbody, hw] at hnone
    have h2 : (if k < w.1 then (none : Option T) else some w.2) = none := hnone
    rw [if_neg (by rw [hwk]; exact lt_irrefl k)] at h2
    exact nomatch h2
  · intro hall
    rw [hbody]
    cases hge : (sort_if_needed (Prod.fst : K × T → K) false c).elements_[
        lower_bound_idx (Prod.fst : K × T → K) k
          (sort_if_needed (Prod.fst : K × T → K) false c).elements_]? with
    | none => rfl
    | some w =>
      have hne := hall w (List.getElem?_mem hge)
      have hnlt : ¬ (w.1 < k) :=
        lower_bound_entry_not_lt (Prod.fst : K × T → K) k _ w hge
      have hk : k < w.1 := by
        by_contra h'
        exact hne ⟨hnlt, h'⟩
      show (if k < w.1 then (none : Option T) else some w.2) = none
      rw [if_pos hk]
  · intro v hv hvk
    obtain ⟨w, hw, hwk⟩ :=
      exists_at_lower_bound (Prod.fst : K × T → K) k _ hs' v hv hvk
    have hvw : w = v :=
      List.inj_on_of_nodup_map hnd' (List.getElem?_mem hw) hv (by rw [hwk, hvk])
    rw [hbody, hw]
    show (if k < w.1 then (none : Option T) else some w.2) = some v.2
    rw [if_neg (by rw [hwk]; exact lt_irrefl k), hvw]

/-- The non-multi map of the C6 scenario, bulk-constructed (hence Dirty) with
keys 42 and 23. -/
def c6_example_container : lazy_sorted_container (Nat × String) :=
  ⟨[(42, "Life"), (23, "Hangar")],
    decide (([(42, "Life"), (23, "Hangar")] : List (Nat × String)).length ≤ 1)⟩

/-- Witness for C6: on the map `{23:"Hangar", 42:"Life"}`, `at(99)` raises
(returns `none`) and `at(23)` returns `"Hangar"`. -/
theorem c6_witness :
    ((at_map 99 c6_example_container).1
        = sort_if_needed (Prod.fst : Nat × String → Nat) false c6_example_container
      ∧ ((at_map 99 c6_example_container).2 = none ↔
          ∀ v ∈ (sort_if_needed (Prod.fst : Nat × String → Nat) false
              c6_example_container).elements_,
            ¬ (¬ (v.1 < 99) ∧ ¬ (99 < v.1)))
      ∧ (∀ v ∈ (sort_if_needed (Prod.fst : Nat × String → Nat) false
            c6_example_container).elements_,
          v.1 = 99 → (at_map 99 c6_example_container).2 = some v.2))
    ∧ (at_map 99 c6_example_container).2 = none
    ∧ (at_map 23 c6_example_container).2 = some "Hangar" :=
  ⟨c6_at_key_not_found 99 c6_example_container (Reachable.of_range _),
    by decide, by decide⟩

/-- C8: for a non-multi map and a key `k` absent from the (resorted) map,
`operator[](k)` inserts the pair of `k` and a default-constructed mapped
value at the lower-bound position, keeping the elements in sorted key order
and the flag set (no further resort), grows the element count by exactly
one, and returns the new mapped value; if `k` is present it returns the
existing mapped value without changing the elements. -/
theorem c8_operator_brackets [LinearOrder K] [Inhabited T] (k : K)
    (c : lazy_sorted_container (K × T))
    (h : Reachable (Prod.fst : K × T → K) false c) :
    ((∀ v ∈ (sort_if_needed (Prod.fst : K × T → K) false c).elements_, v.1 ≠ k) →
      (operator_brackets_impl k c).1.elements_
          = insert_at (lower_bound_idx (Prod.fst : K × T → K) k
                (sort_if_needed (Prod.fst : K × T → K) false c).elements_)
              (k, default)
              (sort_if_needed (Prod.fst : K × T → K) false c).elements_
        ∧ (operator_brackets_impl k c).1.sorted_ = true
        ∧ keys_sorted (Prod.fst : K × T → K) (operator_brackets_impl k c).1.elements_
        ∧ (operator_brackets_impl k c).1.elements_.length
            = (sort_if_needed (Prod.fst : K × T → K) false c).elements_.length + 1
        ∧ (operator_brackets_impl k c).2 = default)
    ∧ (∀ v ∈ (sort_if_needed (Prod.fst : K × T → K) false c).elements_,
        v.1 = k →
          (operator_brackets_impl k c).1 = sort_if_needed (Prod.fst : K × T → K) false c
            ∧ (operator_brackets_impl k c).2 = v.2) := by
  have hinv := sort_if_needed_invariant (Prod.fst : K × T → K) false c
    (reachable_invariant (Prod.fst : K × T → K) false c h)
  have hs' := hinv.1
  have hnd' := hinv.2 rfl
  have hflag : (sort_if_needed (Prod.fst : K × T → K) false c).sorted_ = true :=
    sort_if_needed_flag (Prod.fst : K × T → K) false c
  have hbody : operator_brackets_impl k c =
      (match (sort_if_needed (Prod.fst : K × T → K) false c).elements_[
          lower_bound_idx (Prod.fst : K × T → K) k
            (sort_if_needed (Prod.fst : K × T → K) false c).elements_]? with
        | some v =>
          if k < v.1 then
            (⟨insert_at (lower_bound_idx (Prod.fst : K × T → K) k
                  (sort_if_needed (Prod.fst : K × T → K) false c).elements_)
                (k, default)
                (sort_if_needed (Prod.fst : K × T → K) false c).elements_,
              (sort_if_needed (Prod.fst : K × T → K) false c).sorted_⟩, default)
          else (sort_if_needed (Prod.fst : K × T → K) false c, v.2)
        | none =>
          (⟨insert_at (lower_bound_idx (Prod.fst : K × T → K) k
                (sort_if_needed (Prod.fst : K × T → K) false c).elements_)
              (k, default)
              (sort_if_needed (Prod.fst : K × T → K) false c).elements_,
            (sort_if_needed (Prod.fst : K × T → K) false c).sorted_⟩, default)) := rfl
  constructor
  · intro hab
    have hins : keys_sorted (Prod.fst : K × T → K)
        (insert_at (lower_bound_idx (Prod.fst : K × T → K) k
            (sort_if_needed (Prod.fst : K × T → K) false c).elements_)
          (k, default) (sort_if_needed (Prod.fst : K × T → K) false c).elements_) := by
      refine (insert_at_lower_bound_inv (Prod.fst : K × T → K) ((k, default) : K × T)
        (sort_if_needed (Prod.fst : K × T → K) false c).elements_ hs' hnd' ?_).1
      intro w hw
      have hnlt : ¬ (w.1 < k) :=
        lower_bound_entry_not_lt (Prod.fst : K × T → K) k _ w hw
      have hne : w.1 ≠ k := hab w (List.getElem?_mem hw)
      show k < w.1
      exact lt_of_le_of_ne (not_lt.mp hnlt) (Ne.symm hne)
    have hlen : (insert_at (lower_bound_idx (Prod.fst : K × T → K) k
          (sort_if_needed (Prod.fst : K × T → K) false c).elements_)
        ((k, default) : K × T)
        (sort_if_needed (Prod.fst : K × T → K) false c).elements_).length
        = (sort_if_needed (Prod.fst : K × T → K) false c).elements_.length + 1 :=
      length_insert_at _ _ _ (lower_bound_le_length (Prod.fst : K × T → K) k _)
    cases hge : (sort_if_needed (Prod.fst : K × T → K) false c).elements_[
        lower_bound_idx (Prod.fst : K × T → K) k
          (sort_if_needed (Prod.fst : K × T → K) false c).elements_]? with
    | none =>
      have hres : operator_brackets_impl k c =
          (⟨insert_at (lower_bound_idx (Prod.fst : K × T → K) k
                (sort_if_needed (Prod.fst : K × T → K) false c).elements_)
              (k, default) (sort_if_needed (Prod.fst : K × T → K) false c).elements_,
            (sort_if_needed (Prod.fst : K × T → K) false c).sorted_⟩, default) := by
        rw [hbody, hge]
      rw [hres]
      exact ⟨rfl, hflag, hins, hlen, rfl⟩
    | some w =>
      have hnlt : ¬ (w.1 < k) :=
        lower_bound_entry_not_lt (Prod.fst : K × T → K) k _ w hge
      have hne : w.1 ≠ k := hab w (List.getElem?_mem hge)
      have hk : k < w.1 := lt_of_le_of_ne (not_lt.mp hnlt) (Ne.symm hne)
      have hres : operator_brackets_impl k c =
          (⟨insert_at (lower_bound_idx (Prod.fst : K × T → K) k
                (sort_if_needed (Prod.fst : K × T → K) false c).elements_)
              (k, default) (sort_if_needed (Prod.fst : K × T → K) false c).elements_,
            (sort_if_needed (Prod.fst : K × T → K) false c).sorted_⟩, default) := by
        rw [hbody, hge]
        show (if k < w.1 then
            ((⟨insert_at (lower_bound_idx (Prod.fst : K × T → K) k
                  (sort_if_needed (Prod.fst : K × T → K) false c).elements_)
                (k, default) (sort_if_needed (Prod.fst : K × T → K) false c).elements_,
              (sort_if_needed (Prod.fst : K × T → K) false c).sorted_⟩, default) :
              lazy_sorted_container (K × T) × T)
          else (sort_if_needed (Prod.fst : K × T → K) false c, w.2)) = _
        rw [if_pos hk]
      rw [hres]
      exact ⟨rfl, hflag, hins, hlen, rfl⟩
  · intro v hv hvk
    obtain ⟨w, hw, hwk⟩ :=
      exists_at_lower_bound (Prod.fst : K × T → K) k _ hs' v hv hvk
    have hvw : w = v :=
      List.inj_on_of_nodup_map hnd' (List.getElem?_mem hw) hv (by rw [hwk, hvk])
    have hres : operator_brackets_impl k c =
        (sort_if_needed (Prod.fst : K × T → K) false c, w.2) := by
      rw [hbody, hw]
      show (if k < w.1 then
          ((⟨insert_at (lower_bound_idx (Prod.fst : K × T → K) k
                (sort_if_needed (Prod.fst : K × T → K) false c).elements_)
              (k, default) (sort_if_needed (Prod.fst : K × T → K) false c).elements_,
            (sort_if_needed (Prod.fst : K × T → K) false c).sorted_⟩, default) :
            lazy_sorted_container (K × T) × T)
        else (sort_if_needed (Prod.fst : K × T → K) false c, w.2)) = _
      rw [if_neg (by rw [hwk]; exact lt_irrefl k)]
    rw [hres]
    exact ⟨rfl, by rw [hvw]⟩

/-- Witness for C8: on the map `{23:"Hangar", 42:"Life"}` (already sorted
here), `operator[](99)` inserts a default (empty-string) value, the size
becomes 3 and the returned value is the default. -/
theorem c8_witness :
    ((∀ v ∈ (sort_if_needed (Prod.fst : Nat × String → Nat) false
          ⟨[(23, "Hangar"), (42, "Life")], true⟩).elements_, v.1 ≠ 99) →
      (operator_brackets_impl 99
            (⟨[(23, "Hangar"), (42, "Life")], true⟩ :
              lazy_sorted_container (Nat × String))).1.elements_
          = insert_at (lower_bound_idx (Prod.fst : Nat × String → Nat) 99
                (sort_if_needed (Prod.fst : Nat × String → Nat) false
                  ⟨[(23, "Hangar"), (42, "Life")], true⟩).elements_)
              (99, default)
              (sort_if_needed (Prod.fst : Nat × String → Nat) false
                ⟨[(23, "Hangar"), (42, "Life")], true⟩).elements_
        ∧ (operator_brackets_impl 99
            (⟨[(23, "Hangar"), (42, "Life")], true⟩ :
              lazy_sorted_container (Nat × String))).1.sorted_ = true
        ∧ keys_sorted (Prod.fst : Nat × String → Nat)
            (operator_brackets_impl 99
              (⟨[(23, "Hangar"), (42, "Life")], true⟩ :
                lazy_sorted_container (Nat × String))).1.elements_
        ∧ (operator_brackets_impl 99
            (⟨[(23, "Hangar"), (42, "Life")], true⟩ :
              lazy_sorted_container (Nat × String))).1.elements_.length
            = (sort_if_needed (Prod.fst : Nat × String → Nat) false
                ⟨[(23, "Hangar"), (42, "Life")], true⟩).elements_.length + 1
        ∧ (operator_brackets_impl 99
            (⟨[(23, "Hangar"), (42, "Life")], true⟩ :
              lazy_sorted_container (Nat × String))).2 = default)
    ∧ (∀ v ∈ (sort_if_needed (Prod.fst : Nat × String → Nat) false
          ⟨[(23, "Hangar"), (42, "Life")], true⟩).elements_,
        v.1 = 99 →
          (operator_brackets_impl 99
              (⟨[(23, "Hangar"), (42, "Life")], true⟩ :
                lazy_sorted_container (Nat × String))).1
              = sort_if_needed (Prod.fst : Nat × String → Nat) false
                  ⟨[(23, "Hangar"), (42, "Life")], true⟩
            ∧ (operator_brackets_impl 99
                (⟨[(23, "Hangar"), (42, "Life")], true⟩ :
                  lazy_sorted_container (Nat × String))).2 = v.2)
    ∧ (∀ v ∈ (sort_if_needed (Prod.fst : Nat × String → Nat) false
          ⟨[(23, "Hangar"), (42, "Life")], true⟩).elements_, v.1 ≠ 99)
    ∧ (operator_brackets_impl 99
        (⟨[(23, "Hangar"), (42, "Life")], true⟩ :
          lazy_sorted_container (Nat × String))).1.elements_.length = 3 :=
  ⟨(c8_operator_brackets 99 _ (Reachable.of_range [(23, "Hangar"), (42, "Life")])).1,
    (c8_operator_brackets 99 _ (Reachable.of_range [(23, "Hangar"), (42, "Life")])).2,
    by decide, by decide⟩

end CoveoLazy

